import Mathlib

/-!
Verification development for the Santander Cycle Stats ride-analytics engine.

The TypeScript source is shallowly embedded: JS strings become `String`,
JS numbers holding epoch milliseconds / counters become `Int` / `Nat`,
nullable fields become `Option`, floating point geodesic arithmetic is
modelled over `Real`, and exact decimal price arithmetic over `Rat`.
Each definition is translated from the corresponding function of the
repository (`RoutesTable.tsx`, `StationsTable.tsx`, `StatsCards.tsx`,
`RidesOverTimeHistogram.tsx` / `JourneyTimeHistogram`).
-/

namespace CycleStats

/-! ## JS string primitives -/

/-- The JS whitespace class used by `String.prototype.trim` and the `\s`
regex class (ASCII part plus NBSP; sufficient for the embedded strings). -/
def isJsSpace (c : Char) : Bool :=
  c == ' ' || c == '\t' || c == '\n' || c == '\r' ||
  c == '\x0b' || c == '\x0c' || c == '\u00A0'

/-- JS `String.prototype.toLowerCase` (ASCII case mapping). -/
def jsToLower (s : String) : String :=
  String.mk (s.data.map Char.toLower)

/-- JS `String.prototype.trim`: drop leading and trailing whitespace. -/
def jsTrim (s : String) : String :=
  String.mk (((s.data.dropWhile isJsSpace).reverse.dropWhile isJsSpace).reverse)

/-- Does the first list start with the second one? -/
def leadsWith : List Char → List Char → Bool
  | _, [] => true
  | [], _ :: _ => false
  | a :: as, b :: bs => a == b && leadsWith as bs

/-- Does the first list contain the second as a contiguous segment?
Models JS `String.prototype.includes` on the underlying characters. -/
def containsSeg : List Char → List Char → Bool
  | [], sub => sub.isEmpty
  | c :: cs, sub => leadsWith (c :: cs) sub || containsSeg cs sub

/-- JS `a.includes(b)`. -/
def jsIncludes (a b : String) : Bool :=
  containsSeg a.data b.data

/-- Delimiter class of the split regex `[,\s]+`. -/
def isDelim (c : Char) : Bool :=
  c == ',' || isJsSpace c

/-- One right-fold step of the splitter.  The state is the token list of
the already-processed suffix together with a flag telling whether the
character immediately to the right is a delimiter (so that a maximal
delimiter run produces a single boundary). -/
def splitStep (c : Char) (st : List (List Char) × Bool) :
    List (List Char) × Bool :=
  if isDelim c then
    if st.2 then st else ([] :: st.1, true)
  else
    match st.1 with
    | [] => ([[c]], false)
    | t :: ts => ((c :: t) :: ts, false)

/-- Split a character list at maximal runs of delimiters.  A leading or
trailing run yields an empty token at that end, as in JS. -/
def splitRuns (l : List Char) : List (List Char) :=
  (l.foldr splitStep ([[]], false)).1

/-- JS `s.split(/[,\s]+/)`. -/
def jsSplitDelim (s : String) : List String :=
  (splitRuns s.data).map String.mk

/-- First contiguous run of six decimal digits in the string, if any:
models the JS regex match `/\d{6}/`. -/
def findSixDigits : List Char → Option String
  | [] => none
  | c :: rest =>
    let candidate := (c :: rest).take 6
    if candidate.length == 6 && candidate.all Char.isDigit then
      some (String.mk candidate)
    else
      findSixDigits rest

/-! ## Integer helpers for JS `Math` semantics -/

/-- JS `Math.round (p / q)` for integers with `q > 0`:
`Math.round x = ⌊x + 1/2⌋`, so the result is `⌊(2p + q) / (2q)⌋`. -/
def jsRoundDiv (p q : Int) : Int :=
  Int.fdiv (2 * p + q) (2 * q)

/-- JS `Math.round x` on an exact rational: `⌊x + 1/2⌋`. -/
def jsRoundQ (x : ℚ) : Int :=
  Int.floor (x + 1 / 2)

/-! ## Data model (from `schemas/station.ts` and `schemas/ride.ts`) -/

structure Station where
  id : String
  name : String
  terminalName : String
  lat : ℝ
  long : ℝ
  installed : Bool
  locked : Bool
  installDate : Option Int
  removalDate : Option Int
  temporary : Bool
  nbBikes : Int
  nbStandardBikes : Int
  nbEBikes : Int
  nbEmptyDocks : Int
  nbDocks : Int

structure PriceBreakdownItem where
  title : Option String
  amount : Option String

structure PaymentMethod where
  cardType : Option String
  lastFour : Option String
  clientPaymentMethod : Option String

structure Ride where
  rideId : Option String
  startTimeMs : Option Int
  endTimeMs : Option Int
  startAddress : Option String
  endAddress : Option String
  price : Option String
  priceBreakdown : Option (List PriceBreakdownItem)
  paymentMethod : Option PaymentMethod

/-! ## Station resolver (`findStationByName`, RoutesTable.tsx lines 54-97;
an identical copy lives in StationsTable.tsx) -/

/-- Fuzzy word-overlap count used by the third matching phase: address
tokens of length > 2 that appear (substring, either direction) among
the station-name tokens. -/
def matchingWordCount (addressWords : List String) (stationName : String) : Nat :=
  let stationWords := jsSplitDelim (jsToLower stationName)
  (addressWords.filter (fun aw =>
    stationWords.any (fun sw => jsIncludes sw aw || jsIncludes aw sw))).length

/-- `findStationByName` translated line by line from RoutesTable.tsx:
the falsy guard on the address, then the substring phase, the 6-digit
terminal phase and the fuzzy word-overlap phase, each returning early. -/
def findStationByName (address : Option String) (stations : List Station) :
    Option Station :=
  match address with
  | none => none
  | some addr =>
    if addr == "" then none
    else
      let normalizedAddress := jsTrim (jsToLower addr)
      match stations.find? (fun station =>
          let stationName := jsToLower station.name
          jsIncludes normalizedAddress stationName ||
          jsIncludes stationName normalizedAddress) with
      | some station => some station
      | none =>
        match findSixDigits normalizedAddress.data with
        | some terminal =>
          match stations.find? (fun s => s.terminalName == terminal) with
          | some station => some station
          | none =>
            let addressWords :=
              (jsSplitDelim normalizedAddress).filter (fun w => w.length > 2)
            stations.find? (fun station =>
              decide (matchingWordCount addressWords station.name >= 2))
        | none =>
          let addressWords :=
            (jsSplitDelim normalizedAddress).filter (fun w => w.length > 2)
          stations.find? (fun station =>
            decide (matchingWordCount addressWords station.name >= 2))

/-- The StatsCards.tsx copy of `findStationByName`; it differs only by the
extra `stations.length === 0` early return. -/
def findStationByNameSC (address : Option String) (stations : List Station) :
    Option Station :=
  if stations.length == 0 then none
  else findStationByName address stations

/-! ## Resolver as an ordered chain of strategies (the spec's description) -/

/-- Substring-containment strategy over the normalized address `a`. -/
def substringPhase (a : String) (stations : List Station) : Option Station :=
  stations.find? (fun station =>
    let stationName := jsToLower station.name
    jsIncludes a stationName || jsIncludes stationName a)

/-- Terminal-code strategy: a contiguous 6-digit code in the address is
looked up against `terminalName`. -/
def terminalPhase (a : String) (stations : List Station) : Option Station :=
  match findSixDigits a.data with
  | some terminal => stations.find? (fun s => s.terminalName == terminal)
  | none => none

/-- Fuzzy word-overlap strategy: address tokens of length > 2, station-name
tokens split by the same delimiters, at least 2 matches accepts. -/
def fuzzyPhase (a : String) (stations : List Station) : Option Station :=
  let addressWords := (jsSplitDelim a).filter (fun w => w.length > 2)
  stations.find? (fun station =>
    decide (matchingWordCount addressWords station.name >= 2))

/-- Try the strategies in order; the first match wins. -/
def runPhases : List (String → List Station → Option Station) →
    String → List Station → Option Station
  | [], _, _ => none
  | p :: ps, a, stations =>
    match p a stations with
    | some station => some station
    | none => runPhases ps a stations

/-- The resolver exactly as the claim states it: a null address resolves to
null, otherwise the lowercase-trimmed address is fed to the strategies in
order, first match winning — with no special case for the empty string. -/
def resolveClaimSpec (address : Option String) (stations : List Station) :
    Option Station :=
  match address with
  | none => none
  | some addr =>
    runPhases [substringPhase, terminalPhase, fuzzyPhase]
      (jsTrim (jsToLower addr)) stations

/-- The resolver as the amended claim states it: a null or empty address
resolves to null, otherwise the strategy chain runs as in
`resolveClaimSpec`. -/
def resolveAmendedSpec (address : Option String) (stations : List Station) :
    Option Station :=
  match address with
  | none => none
  | some addr =>
    if addr == "" then none
    else
      runPhases [substringPhase, terminalPhase, fuzzyPhase]
        (jsTrim (jsToLower addr)) stations

/-- A sample station used as a concrete input. -/
def stA : Station :=
  { id := "1", name := "Alpha Plaza", terminalName := "001001",
    lat := 0, long := 0, installed := true, locked := false,
    installDate := none, removalDate := none, temporary := false,
    nbBikes := 0, nbStandardBikes := 0, nbEBikes := 0,
    nbEmptyDocks := 0, nbDocks := 0 }

/-- C3 counterexample: on the empty-string address the code returns null,
while the claimed strategy chain would match the first station (every
station name contains the empty string). -/
theorem findStationByName_empty_address_differs :
    findStationByName (some "") [stA] = none ∧
    (resolveClaimSpec (some "") [stA]).map Station.id = some "1" := by
  constructor
  · rfl
  · decide

/-- C3 (amended): `findStationByName` is the claimed ordered strategy chain,
with the single amendment that an empty-string address (like a null one) is
rejected up front rather than run through the strategies. -/
theorem findStationByName_eq_amended (address : Option String)
    (stations : List Station) :
    findStationByName address stations = resolveAmendedSpec address stations := by
  cases address with
  | none => rfl
  | some addr =>
    unfold findStationByName resolveAmendedSpec
    cases haddr : (addr == "") with
    | true => simp [haddr]
    | false =>
      simp only [haddr, Bool.false_eq_true, if_false]
      simp only [runPhases, substringPhase, terminalPhase, fuzzyPhase]
      cases hsub : (List.find? (fun station =>
          jsIncludes (jsTrim (jsToLower addr)) (jsToLower station.name) ||
          jsIncludes (jsToLower station.name) (jsTrim (jsToLower addr))) stations) with
      | some st => simp [hsub]
      | none =>
        simp only [hsub]
        cases hdig : findSixDigits (jsTrim (jsToLower addr)).data with
        | some terminal =>
          simp only [hdig]
          cases hterm : (List.find? (fun s => s.terminalName == terminal) stations) with
          | some st => simp [hterm]
          | none =>
            simp only [hterm]
            cases hfuzzy : (List.find? (fun station =>
                decide (matchingWordCount
                  ((jsSplitDelim (jsTrim (jsToLower addr))).filter
                    (fun w => w.length > 2)) station.name >= 2)) stations) with
            | some st => simp [hfuzzy]
            | none => simp [hfuzzy]
        | none =>
          simp only [hdig]
          cases hfuzzy : (List.find? (fun station =>
              decide (matchingWordCount
                ((jsSplitDelim (jsTrim (jsToLower addr))).filter
                  (fun w => w.length > 2)) station.name >= 2)) stations) with
          | some st => simp [hfuzzy]
          | none => simp [hfuzzy]

/-- A phase built directly from `List.find?` only returns directory members. -/
theorem substringPhase_mem {a : String} {stations : List Station} {st : Station}
    (h : substringPhase a stations = some st) : st ∈ stations :=
  List.mem_of_find?_eq_some h

/-- The terminal phase only returns directory members. -/
theorem terminalPhase_mem {a : String} {stations : List Station} {st : Station}
    (h : terminalPhase a stations = some st) : st ∈ stations := by
  unfold terminalPhase at h
  cases hdig : findSixDigits a.data with
  | some terminal =>
    rw [hdig] at h
    exact List.mem_of_find?_eq_some h
  | none => rw [hdig] at h; exact absurd h (by simp)

/-- The fuzzy phase only returns directory members. -/
theorem fuzzyPhase_mem {a : String} {stations : List Station} {st : Station}
    (h : fuzzyPhase a stations = some st) : st ∈ stations :=
  List.mem_of_find?_eq_some h

/-- A chain of member-returning phases only returns directory members. -/
theorem runPhases_mem {ps : List (String → List Station → Option Station)}
    {a : String} {stations : List Station} {st : Station}
    (hps : ∀ p ∈ ps, ∀ s, p a stations = some s → s ∈ stations)
    (h : runPhases ps a stations = some st) : st ∈ stations := by
  induction ps with
  | nil => exact absurd h (by simp [runPhases])
  | cons p ps ih =>
    unfold runPhases at h
    cases hp : p a stations with
    | some s =>
      rw [hp] at h
      cases h
      exact hps p (List.mem_cons_self _ _) st hp
    | none =>
      rw [hp] at h
      exact ih (fun q hq s hs => hps q (List.mem_cons_of_mem _ hq) s hs) h

/-- A resolved station is always drawn from the directory. -/
theorem findStationByName_mem {address : Option String}
    {stations : List Station} {st : Station}
    (h : findStationByName address stations = some st) : st ∈ stations := by
  rw [findStationByName_eq_amended] at h
  cases address with
  | none => exact absurd h (by simp [resolveAmendedSpec])
  | some addr =>
    simp only [resolveAmendedSpec] at h
    by_cases haddr : (addr == "") = true
    · rw [if_pos haddr] at h
      exact absurd h (by simp)
    · rw [if_neg haddr] at h
      refine runPhases_mem ?_ h
      intro p hp s hs
      simp only [List.mem_cons, List.not_mem_nil, or_false] at hp
      rcases hp with hp | hp | hp
      · subst hp; exact substringPhase_mem hs
      · subst hp; exact terminalPhase_mem hs
      · subst hp; exact fuzzyPhase_mem hs

/-! ## Whitespace-only addresses (claim C10) -/

/-- ASCII lower-casing fixes every JS whitespace character. -/
theorem toLower_isJsSpace {c : Char} (h : isJsSpace c = true) :
    Char.toLower c = c := by
  unfold isJsSpace at h
  simp only [Bool.or_eq_true, beq_iff_eq] at h
  rcases h with (((((h | h) | h) | h) | h) | h) | h <;> subst h <;> decide

/-- Lower-casing then trimming an all-whitespace string gives the empty
string. -/
theorem jsTrim_jsToLower_all_space {s : String}
    (h : ∀ c ∈ s.data, isJsSpace c = true) : jsTrim (jsToLower s) = "" := by
  unfold jsTrim jsToLower
  have hmap : s.data.map Char.toLower = s.data := by
    have hcongr := List.map_congr_left (l := s.data) (f := Char.toLower)
      (g := id) (fun c hc => toLower_isJsSpace (h c hc))
    simpa using hcongr
  have hdata : (String.mk (s.data.map Char.toLower)).data
      = s.data.map Char.toLower := rfl
  rw [hdata, hmap, List.dropWhile_eq_nil_iff.mpr h]
  rfl

/-- Every string contains the empty string. -/
theorem jsIncludes_empty (s : String) : jsIncludes s "" = true := by
  unfold jsIncludes
  have hnil : "".data = [] := rfl
  rw [hnil]
  cases s.data with
  | nil => rfl
  | cons c cs => rfl

/-- C10: a non-empty but all-whitespace address normalizes to the empty
string, which the substring phase matches against every station name, so
both resolver variants return the first station of a non-empty directory. -/
theorem whitespace_address_resolves_first (ws : String) (stations : List Station)
    (hne : ws ≠ "") (hsp : ∀ c ∈ ws.data, isJsSpace c = true)
    (hs : 0 < stations.length) :
    findStationByName (some ws) stations = stations.head? ∧
    findStationByNameSC (some ws) stations = stations.head? := by
  cases stations with
  | nil => simp at hs
  | cons s0 rest =>
    have hguard : (ws == "") = false := beq_eq_false_iff_ne.mpr hne
    have htrim : jsTrim (jsToLower ws) = "" := jsTrim_jsToLower_all_space hsp
    have hfind : List.find? (fun station =>
        jsIncludes (jsTrim (jsToLower ws)) (jsToLower station.name) ||
        jsIncludes (jsToLower station.name) (jsTrim (jsToLower ws)))
        (s0 :: rest) = some s0 := by
      apply List.find?_cons_of_pos
      rw [htrim]
      simp [jsIncludes_empty]
    have hmain : findStationByName (some ws) (s0 :: rest) = some s0 := by
      simp only [findStationByName, hguard, Bool.false_eq_true, if_false, hfind]
    refine ⟨hmain, ?_⟩
    unfold findStationByNameSC
    simp only [List.length_cons]
    rw [if_neg (by simp)]
    exact hmain

/-- Witness for C10 at a one-space address and a singleton directory. -/
theorem whitespace_address_resolves_first_w :
    (" " ≠ "") ∧ (∀ c ∈ (" " : String).data, isJsSpace c = true) ∧
    (0 < ([stA] : List Station).length) ∧
    (findStationByName (some " ") [stA] = ([stA] : List Station).head? ∧
     findStationByNameSC (some " ") [stA] = ([stA] : List Station).head?) :=
  ⟨by decide, by decide, by decide,
   whitespace_address_resolves_first " " [stA] (by decide) (by decide) (by decide)⟩

/-! ## Geodesic distance (`calculateDistance`, RoutesTable.tsx lines 34-51;
an identical copy lives in StatsCards.tsx) -/

/-- JS `Math.atan2` on real arguments. -/
noncomputable def jsAtan2 (y x : ℝ) : ℝ :=
  if 0 < x then Real.arctan (y / x)
  else if x < 0 then
    (if 0 ≤ y then Real.arctan (y / x) + Real.pi
     else Real.arctan (y / x) - Real.pi)
  else
    (if 0 < y then Real.pi / 2 else if y < 0 then -(Real.pi / 2) else 0)

/-- The haversine intermediate `a` of `calculateDistance`. -/
noncomputable def havA (lat1 lon1 lat2 lon2 : ℝ) : ℝ :=
  let dLat := (lat2 - lat1) * Real.pi / 180
  let dLon := (lon2 - lon1) * Real.pi / 180
  Real.sin (dLat / 2) * Real.sin (dLat / 2) +
    Real.cos (lat1 * Real.pi / 180) * Real.cos (lat2 * Real.pi / 180) *
      Real.sin (dLon / 2) * Real.sin (dLon / 2)

/-- `calculateDistance`: haversine distance in km with Earth radius 6371. -/
noncomputable def calculateDistance (lat1 lon1 lat2 lon2 : ℝ) : ℝ :=
  let R : ℝ := 6371
  let a := havA lat1 lon1 lat2 lon2
  let c := 2 * jsAtan2 (Real.sqrt a) (Real.sqrt (1 - a))
  R * c

/-- The haversine intermediate is symmetric in its two coordinate pairs. -/
theorem havA_symm (lat1 lon1 lat2 lon2 : ℝ) :
    havA lat1 lon1 lat2 lon2 = havA lat2 lon2 lat1 lon1 := by
  simp only [havA]
  have h1 : (lat1 - lat2) * Real.pi / 180 / 2
      = -((lat2 - lat1) * Real.pi / 180 / 2) := by ring
  have h2 : (lon1 - lon2) * Real.pi / 180 / 2
      = -((lon2 - lon1) * Real.pi / 180 / 2) := by ring
  rw [h1, h2, Real.sin_neg, Real.sin_neg]
  ring

/-- C9: the geodesic distance is symmetric, and zero on the diagonal. -/
theorem calculateDistance_symm_and_diag :
    (∀ lat1 lon1 lat2 lon2 : ℝ,
      calculateDistance lat1 lon1 lat2 lon2 = calculateDistance lat2 lon2 lat1 lon1) ∧
    (∀ lat lon : ℝ, calculateDistance lat lon lat lon = 0) := by
  constructor
  · intro lat1 lon1 lat2 lon2
    simp only [calculateDistance]
    rw [havA_symm]
  · intro lat lon
    have ha : havA lat lon lat lon = 0 := by
      simp only [havA]
      have h1 : (lat - lat) * Real.pi / 180 / 2 = 0 := by ring
      have h2 : (lon - lon) * Real.pi / 180 / 2 = 0 := by ring
      rw [h1, h2, Real.sin_zero]
      ring
    simp only [calculateDistance, ha]
    have hs0 : Real.sqrt 0 = 0 := Real.sqrt_zero
    have hs1 : Real.sqrt (1 - 0) = 1 := by
      rw [sub_zero]; exact Real.sqrt_one
    rw [hs0, hs1]
    have hat : jsAtan2 0 1 = 0 := by
      unfold jsAtan2
      rw [if_pos (by norm_num)]
      simp [Real.arctan_zero]
    rw [hat]
    ring

/-! ## Route aggregation (`routeStats`, RoutesTable.tsx lines 118-190) -/

structure RouteStats where
  startStation : Station
  endStation : Station
  count : Nat
  avgDurationMinutes : Option Int
  minDurationMinutes : Option Int
  maxDurationMinutes : Option Int
  distanceKm : ℝ

/-- Ride duration in whole minutes (`Math.round((end - start) / 60000)`),
null when either timestamp is missing. -/
def rideDurationMinutes (ride : Ride) : Option Int :=
  match ride.startTimeMs, ride.endTimeMs with
  | some s, some e => some (jsRoundDiv (e - s) 60000)
  | _, _ => none

/-- The mutation performed on an existing route entry, in source order:
`count` is incremented first; with a duration available the average is
recomputed from the already-incremented count, then min and max are
updated behind their null / comparison guards. -/
def updateRouteStats (existing : RouteStats) (durationMinutes : Option Int) :
    RouteStats :=
  let e1 := { existing with count := existing.count + 1 }
  match durationMinutes with
  | none => e1
  | some d =>
    let e2 :=
      match e1.avgDurationMinutes with
      | none => { e1 with avgDurationMinutes := some d }
      | some avg =>
        let totalDuration := avg * ((e1.count : Int) - 1) + d
        { e1 with avgDurationMinutes := some (jsRoundDiv totalDuration (e1.count : Int)) }
    let e3 :=
      match e2.minDurationMinutes with
      | none => { e2 with minDurationMinutes := some d }
      | some m =>
        if d < m then { e2 with minDurationMinutes := some d } else e2
    match e3.maxDurationMinutes with
    | none => { e3 with maxDurationMinutes := some d }
    | some m =>
      if d > m then { e3 with maxDurationMinutes := some d } else e3

/-- A fresh route entry: `count = 1`, duration (possibly null) seeding
average, min and max, distance computed from the station coordinates. -/
noncomputable def newRouteStats (startStation endStation : Station)
    (durationMinutes : Option Int) : RouteStats :=
  { startStation := startStation, endStation := endStation, count := 1,
    avgDurationMinutes := durationMinutes,
    minDurationMinutes := durationMinutes,
    maxDurationMinutes := durationMinutes,
    distanceKm := calculateDistance startStation.lat startStation.long
      endStation.lat endStation.long }

/-- JS `Map.get` on an insertion-ordered association list. -/
def lookupEntry {β : Type} : List (String × β) → String → Option β
  | [], _ => none
  | (k, v) :: rest, key => if k == key then some v else lookupEntry rest key

/-- In-place value update of the (unique) entry with the given key,
preserving insertion order, as JS `Map.get` plus mutation does. -/
def updateEntry {β : Type} : List (String × β) → String → (β → β) →
    List (String × β)
  | [], _, _ => []
  | (k, v) :: rest, key, f =>
    if k == key then (k, f v) :: rest else (k, v) :: updateEntry rest key f

/-- One ride folded into the route map (the `rides.forEach` body of
`routeStats`): rides with an unresolved endpoint are skipped entirely. -/
noncomputable def routeStep (stations : List Station)
    (routesMap : List (String × RouteStats)) (ride : Ride) :
    List (String × RouteStats) :=
  match findStationByName ride.startAddress stations,
      findStationByName ride.endAddress stations with
  | some startStation, some endStation =>
    let routeKey := startStation.id ++ "-" ++ endStation.id
    let durationMinutes := rideDurationMinutes ride
    match lookupEntry routesMap routeKey with
    | some _ =>
      updateEntry routesMap routeKey
        (fun existing => updateRouteStats existing durationMinutes)
    | none =>
      routesMap ++ [(routeKey, newRouteStats startStation endStation durationMinutes)]
  | _, _ => routesMap

/-- `routeStats`: fold the rides into the keyed map and return its values. -/
noncomputable def routeStats (rides : List Ride) (stations : List Station) :
    List RouteStats :=
  (rides.foldl (routeStep stations) []).map Prod.snd

/-- Does a ride resolve at both endpoints? -/
def bothResolve (stations : List Station) (ride : Ride) : Bool :=
  (findStationByName ride.startAddress stations).isSome &&
  (findStationByName ride.endAddress stations).isSome

/-- Total ride count recorded in a route map. -/
def sumCounts (m : List (String × RouteStats)) : Nat :=
  (m.map (fun e => e.2.count)).sum

/-- The update step always increments the count by exactly one. -/
theorem updateRouteStats_count (e : RouteStats) (d : Option Int) :
    (updateRouteStats e d).count = e.count + 1 := by
  obtain ⟨ss, es, cnt, avg, mn, mx, dist⟩ := e
  cases d with
  | none => rfl
  | some d =>
    cases avg <;> cases mn <;> cases mx <;>
      simp only [updateRouteStats] <;>
      repeat' first
        | rfl
        | split

/-- Updating an existing key adds exactly one to the recorded total. -/
theorem sumCounts_updateEntry (m : List (String × RouteStats)) (key : String)
    (d : Option Int) (v : RouteStats) (hk : lookupEntry m key = some v) :
    sumCounts (updateEntry m key (fun e => updateRouteStats e d))
      = sumCounts m + 1 := by
  induction m with
  | nil => simp [lookupEntry] at hk
  | cons p rest ih =>
    obtain ⟨k, w⟩ := p
    by_cases h : (k == key) = true
    · simp only [updateEntry, if_pos h, sumCounts, List.map_cons, List.sum_cons,
        updateRouteStats_count]
      simp [sumCounts] at *
      omega
    · simp only [lookupEntry, if_neg h] at hk
      simp only [updateEntry, if_neg h]
      have := ih hk
      simp only [sumCounts, List.map_cons, List.sum_cons] at this ⊢
      omega

/-- Appending a fresh entry adds exactly one to the recorded total. -/
theorem sumCounts_append (m : List (String × RouteStats)) (key : String)
    (s e : Station) (d : Option Int) :
    sumCounts (m ++ [(key, newRouteStats s e d)]) = sumCounts m + 1 := by
  simp [sumCounts, newRouteStats]

/-- Folding rides into a route map adds one recorded ride per ride whose
two endpoints both resolve. -/
theorem sumCounts_foldl (stations : List Station) (rides : List Ride) :
    ∀ m : List (String × RouteStats),
      sumCounts (rides.foldl (routeStep stations) m)
        = sumCounts m + rides.countP (bothResolve stations) := by
  induction rides with
  | nil => intro m; simp
  | cons r rest ih =>
    intro m
    rw [List.foldl_cons, List.countP_cons, ih]
    unfold routeStep bothResolve
    cases hs : findStationByName r.startAddress stations with
    | none => simp
    | some startStation =>
      cases he : findStationByName r.endAddress stations with
      | none => simp
      | some endStation =>
        simp only [Option.isSome_some, Bool.and_self]
        cases hl : lookupEntry m (startStation.id ++ "-" ++ endStation.id) with
        | some v =>
          simp only [sumCounts_updateEntry m _ _ v hl, if_true]
          omega
        | none =>
          simp only [sumCounts_append, if_true]
          omega

/-- C1: the total of `count` over all route entries equals the number of
rides whose start and end addresses both resolve to a station. -/
theorem routeStats_count_conservation (rides : List Ride) (stations : List Station) :
    ((routeStats rides stations).map RouteStats.count).sum
      = rides.countP (bothResolve stations) := by
  unfold routeStats
  rw [List.map_map]
  have h := sumCounts_foldl stations rides []
  simpa [sumCounts, Function.comp] using h

/-- The update step exactly as the claim states it: the count is
incremented; with a duration available, the running mean is recomputed as
`round((oldAvg * (count - 1) + newDuration) / count)` against the new
count (a first-ever duration seeds the mean), and min and max are updated;
without a duration the three duration fields stay as they were. -/
def claimRouteUpdate (e : RouteStats) (durationMinutes : Option Int) :
    RouteStats :=
  let count := e.count + 1
  match durationMinutes with
  | none => { e with count := count }
  | some d =>
    { e with
      count := count,
      avgDurationMinutes :=
        match e.avgDurationMinutes with
        | none => some d
        | some oldAvg =>
          some (jsRoundDiv (oldAvg * ((count : Int) - 1) + d) (count : Int)),
      minDurationMinutes :=
        match e.minDurationMinutes with
        | none => some d
        | some m => some (min m d),
      maxDurationMinutes :=
        match e.maxDurationMinutes with
        | none => some d
        | some m => some (max m d) }

/-- C5: the source's sequential mutation of an existing route entry agrees
with the claimed update rule on every state and every duration. -/
theorem updateRouteStats_eq_claim (e : RouteStats) (d : Option Int) :
    updateRouteStats e d = claimRouteUpdate e d := by
  obtain ⟨ss, es, cnt, avg, mn, mx, dist⟩ := e
  cases d with
  | none => rfl
  | some d =>
    cases avg <;> cases mn <;> cases mx <;>
      simp only [updateRouteStats, claimRouteUpdate, min_def, max_def] <;>
      split_ifs <;>
      first
        | rfl
        | (simp_all [RouteStats.mk.injEq] <;> omega)

/-! ## Station aggregation (`stationStats`, StationsTable.tsx lines 624-662) -/

structure StationStats where
  station : Station
  pickups : Nat
  dropoffs : Nat
  total : Nat
  net : Int

/-- JS `Map.set`: replace in place when the key exists, append otherwise. -/
def setEntry {β : Type} : List (String × β) → String → β → List (String × β)
  | [], key, v => [(key, v)]
  | (k, w) :: rest, key, v =>
    if k == key then (key, v) :: rest else (k, w) :: setEntry rest key v

/-- The zero-stats record a station is initialized with. -/
def zeroStationStats (station : Station) : StationStats :=
  { station := station, pickups := 0, dropoffs := 0, total := 0, net := 0 }

/-- `stations.forEach` initialization: every station keyed by its id. -/
def initStationStats (stations : List Station) : List (String × StationStats) :=
  stations.foldl (fun m station => setEntry m station.id (zeroStationStats station)) []

/-- `stats.pickups++; stats.total++; stats.net++`. -/
def recordPickup (s : StationStats) : StationStats :=
  { s with pickups := s.pickups + 1, total := s.total + 1, net := s.net + 1 }

/-- `stats.dropoffs++; stats.total++; stats.net--`. -/
def recordDropoff (s : StationStats) : StationStats :=
  { s with dropoffs := s.dropoffs + 1, total := s.total + 1, net := s.net - 1 }

/-- One resolve-get-mutate block of the `rides.forEach` body: when the
address resolved and the map holds the station's id (the `if (stats)`
guard), mutate that entry in place. -/
def bumpStation (m : List (String × StationStats)) (resolved : Option Station)
    (f : StationStats → StationStats) : List (String × StationStats) :=
  match resolved with
  | some station =>
    if (lookupEntry m station.id).isSome then updateEntry m station.id f else m
  | none => m

/-- The `rides.forEach` body of `stationStats`: resolve the start address
and bump its entry when present, then do the same for the end address. -/
def stationStep (stations : List Station) (m : List (String × StationStats))
    (ride : Ride) : List (String × StationStats) :=
  let m1 := bumpStation m (findStationByName ride.startAddress stations) recordPickup
  bumpStation m1 (findStationByName ride.endAddress stations) recordDropoff

/-- `stationStats`: zero-initialize the directory, fold the rides, return
the map's values. -/
def stationStats (rides : List Ride) (stations : List Station) :
    List StationStats :=
  (rides.foldl (stationStep stations) (initStationStats stations)).map Prod.snd

/-! ### Association-list lemmas -/

/-- Updating one entry never changes which keys are present. -/
theorem lookupEntry_updateEntry_isSome {β : Type} (f : β → β)
    (m : List (String × β)) (key key2 : String) :
    (lookupEntry (updateEntry m key f) key2).isSome
      = (lookupEntry m key2).isSome := by
  induction m with
  | nil => rfl
  | cons p rest ih =>
    obtain ⟨k, w⟩ := p
    by_cases h : k = key <;> by_cases h2 : k = key2 <;>
      simp [updateEntry, lookupEntry, h, h2, ih] <;>
      split <;> simp [lookupEntry]

/-- Key presence after a `Map.set`. -/
theorem lookupEntry_setEntry_isSome {β : Type} (m : List (String × β))
    (key key2 : String) (v : β) :
    (lookupEntry (setEntry m key v) key2).isSome
      = ((key == key2) || (lookupEntry m key2).isSome) := by
  induction m with
  | nil =>
    by_cases h : key = key2 <;> simp [setEntry, lookupEntry, h]
  | cons p rest ih =>
    obtain ⟨k, w⟩ := p
    by_cases h : k = key
    · subst h
      by_cases h2 : k = key2 <;> simp [setEntry, lookupEntry, h2]
    · by_cases h2 : k = key2
      · subst h2
        simp [setEntry, lookupEntry, h]
      · simp [setEntry, lookupEntry, h, h2, ih]

/-- A keyed sum grows by one when the update adds one to the measured
field of the (present) entry. -/
theorem sumBy_updateEntry_add {β : Type} (g : β → Nat) (f : β → β)
    (hf : ∀ w, g (f w) = g w + 1) :
    ∀ (m : List (String × β)) (key : String) (v : β),
      lookupEntry m key = some v →
      ((updateEntry m key f).map (fun e => g e.2)).sum
        = (m.map (fun e => g e.2)).sum + 1 := by
  intro m
  induction m with
  | nil => intro key v hk; simp [lookupEntry] at hk
  | cons p rest ih =>
    intro key v hk
    obtain ⟨k, w⟩ := p
    by_cases h : k = key
    · subst h
      simp [updateEntry, hf]
      omega
    · rw [lookupEntry, if_neg (by simpa [beq_iff_eq] using h)] at hk
      rw [updateEntry, if_neg (by simpa [beq_iff_eq] using h)]
      simp only [List.map_cons, List.sum_cons, ih _ _ hk]
      omega

/-- A keyed sum is unchanged when the update leaves the measured field
alone. -/
theorem sumBy_updateEntry_eq {β : Type} (g : β → Nat) (f : β → β)
    (hf : ∀ w, g (f w) = g w) :
    ∀ (m : List (String × β)) (key : String),
      ((updateEntry m key f).map (fun e => g e.2)).sum
        = (m.map (fun e => g e.2)).sum := by
  intro m
  induction m with
  | nil => intro key; rfl
  | cons p rest ih =>
    intro key
    obtain ⟨k, w⟩ := p
    by_cases h : k = key
    · subst h
      simp [updateEntry, hf]
    · simp [updateEntry, h, ih]

/-- A value invariant survives an in-place update that preserves it. -/
theorem mem_updateEntry {β : Type} {P : β → Prop} (f : β → β)
    (hP : ∀ w, P w → P (f w)) :
    ∀ (m : List (String × β)) (key : String), (∀ e ∈ m, P e.2) →
      ∀ e ∈ updateEntry m key f, P e.2 := by
  intro m
  induction m with
  | nil => intro key _ e he; simp [updateEntry] at he
  | cons p rest ih =>
    intro key hm e he
    obtain ⟨k, w⟩ := p
    by_cases h : (k == key) = true
    · rw [updateEntry, if_pos h] at he
      rcases List.mem_cons.mp he with h1 | h1
      · subst h1; exact hP w (hm _ (List.mem_cons_self _ _))
      · exact hm _ (List.mem_cons_of_mem _ h1)
    · rw [updateEntry, if_neg h] at he
      rcases List.mem_cons.mp he with h1 | h1
      · subst h1; exact hm _ (List.mem_cons_self _ _)
      · exact ih key (fun e he => hm _ (List.mem_cons_of_mem _ he)) e h1

/-- A value invariant survives a `Map.set` with a value satisfying it. -/
theorem mem_setEntry {β : Type} {P : β → Prop} :
    ∀ (m : List (String × β)) (key : String) (v : β), (∀ e ∈ m, P e.2) →
      P v → ∀ e ∈ setEntry m key v, P e.2 := by
  intro m
  induction m with
  | nil =>
    intro key v _ hv e he
    simp only [setEntry, List.mem_singleton] at he
    subst he; exact hv
  | cons p rest ih =>
    intro key v hm hv e he
    obtain ⟨k, w⟩ := p
    by_cases h : (k == key) = true
    · rw [setEntry, if_pos h] at he
      rcases List.mem_cons.mp he with h1 | h1
      · subst h1; exact hv
      · exact hm _ (List.mem_cons_of_mem _ h1)
    · rw [setEntry, if_neg h] at he
      rcases List.mem_cons.mp he with h1 | h1
      · subst h1; exact hm _ (List.mem_cons_self _ _)
      · exact ih key v (fun e he => hm _ (List.mem_cons_of_mem _ he)) hv e h1

/-! ### Conservation of the station aggregation -/

/-- Every station of the directory has a key in the map. -/
def keysCover (stations : List Station) (m : List (String × StationStats)) : Prop :=
  ∀ st ∈ stations, (lookupEntry m st.id).isSome = true

/-- Key presence in the zero-initialization fold. -/
theorem lookup_foldl_init (l : List Station) :
    ∀ (m : List (String × StationStats)) (key : String),
      (lookupEntry (l.foldl (fun m station =>
          setEntry m station.id (zeroStationStats station)) m) key).isSome
        = (l.any (fun st => st.id == key) || (lookupEntry m key).isSome) := by
  induction l with
  | nil => intro m key; simp
  | cons st l ih =>
    intro m key
    rw [List.foldl_cons, ih, lookupEntry_setEntry_isSome]
    simp [Bool.or_assoc, Bool.or_comm, Bool.or_left_comm]

/-- The zero-initialized map covers the whole directory. -/
theorem initStationStats_covers (stations : List Station) :
    keysCover stations (initStationStats stations) := by
  intro st hst
  unfold initStationStats
  rw [lookup_foldl_init]
  have : stations.any (fun s => s.id == st.id) = true :=
    List.any_eq_true.mpr ⟨st, hst, by simp⟩
  simp [this]

/-- A bump never changes which keys are present. -/
theorem keysCover_bumpStation {stations : List Station}
    {m : List (String × StationStats)} (resolved : Option Station)
    (f : StationStats → StationStats) (h : keysCover stations m) :
    keysCover stations (bumpStation m resolved f) := by
  cases resolved with
  | none => exact h
  | some st =>
    simp only [bumpStation]
    cases hl : lookupEntry m st.id with
    | none => simpa using h
    | some v =>
      simp only [Option.isSome_some, if_true]
      intro s hs
      rw [lookupEntry_updateEntry_isSome]
      exact h s hs

/-- A bump whose mutation adds one to the measured field adds one to the
keyed sum exactly when the address resolved (given directory coverage). -/
theorem sumBy_bumpStation_add {stations : List Station}
    {m : List (String × StationStats)} (g : StationStats → Nat)
    (f : StationStats → StationStats) (resolved : Option Station)
    (hf : ∀ w, g (f w) = g w + 1) (hcov : keysCover stations m)
    (hres : ∀ st, resolved = some st → st ∈ stations) :
    ((bumpStation m resolved f).map (fun e => g e.2)).sum
      = (m.map (fun e => g e.2)).sum + (if resolved.isSome then 1 else 0) := by
  cases resolved with
  | none => simp [bumpStation]
  | some st =>
    simp only [bumpStation]
    cases hl : lookupEntry m st.id with
    | none =>
      have := hcov st (hres st rfl)
      rw [hl] at this
      simp at this
    | some v =>
      simp only [Option.isSome_some, if_true]
      rw [sumBy_updateEntry_add g f hf m st.id v hl]

/-- A bump whose mutation leaves the measured field alone leaves the keyed
sum alone. -/
theorem sumBy_bumpStation_eq {m : List (String × StationStats)}
    (g : StationStats → Nat) (f : StationStats → StationStats)
    (resolved : Option Station) (hf : ∀ w, g (f w) = g w) :
    ((bumpStation m resolved f).map (fun e => g e.2)).sum
      = (m.map (fun e => g e.2)).sum := by
  cases resolved with
  | none => rfl
  | some st =>
    simp only [bumpStation]
    cases hl : lookupEntry m st.id with
    | none => simp
    | some v =>
      simp only [Option.isSome_some, if_true]
      exact sumBy_updateEntry_eq g f hf m st.id

/-- A value invariant survives a bump whose mutation preserves it. -/
theorem mem_bumpStation {P : StationStats → Prop}
    {m : List (String × StationStats)} (resolved : Option Station)
    (f : StationStats → StationStats) (hP : ∀ w, P w → P (f w))
    (hm : ∀ e ∈ m, P e.2) : ∀ e ∈ bumpStation m resolved f, P e.2 := by
  cases resolved with
  | none => exact hm
  | some st =>
    simp only [bumpStation]
    cases hl : lookupEntry m st.id with
    | none =>
      intro e he
      simp only [Option.isSome_none, Bool.false_eq_true, if_false] at he
      exact hm e he
    | some v =>
      simp only [Option.isSome_some, if_true]
      exact mem_updateEntry f hP m st.id hm

/-- Directory coverage survives a whole ride step. -/
theorem keysCover_stationStep {stations : List Station}
    {m : List (String × StationStats)} (r : Ride) (h : keysCover stations m) :
    keysCover stations (stationStep stations m r) :=
  keysCover_bumpStation _ _ (keysCover_bumpStation _ _ h)

/-- One ride adds one pickup to the total exactly when its start resolves. -/
theorem sumPickups_stationStep {stations : List Station}
    {m : List (String × StationStats)} (r : Ride) (hcov : keysCover stations m) :
    ((stationStep stations m r).map (fun e => e.2.pickups)).sum
      = (m.map (fun e => e.2.pickups)).sum
        + (if (findStationByName r.startAddress stations).isSome then 1 else 0) := by
  unfold stationStep
  rw [sumBy_bumpStation_eq (fun s => s.pickups) recordDropoff _
    (fun w => rfl)]
  exact sumBy_bumpStation_add (fun s => s.pickups) recordPickup _
    (fun w => rfl) hcov (fun st hst => findStationByName_mem hst)

/-- One ride adds one dropoff to the total exactly when its end resolves. -/
theorem sumDropoffs_stationStep {stations : List Station}
    {m : List (String × StationStats)} (r : Ride) (hcov : keysCover stations m) :
    ((stationStep stations m r).map (fun e => e.2.dropoffs)).sum
      = (m.map (fun e => e.2.dropoffs)).sum
        + (if (findStationByName r.endAddress stations).isSome then 1 else 0) := by
  unfold stationStep
  rw [sumBy_bumpStation_add (fun s => s.dropoffs) recordDropoff _
    (fun w => rfl) (keysCover_bumpStation _ _ hcov)
    (fun st hst => findStationByName_mem hst)]
  rw [sumBy_bumpStation_eq (fun s => s.dropoffs) recordPickup _ (fun w => rfl)]

/-- Coverage survives the whole fold. -/
theorem keysCover_foldl {stations : List Station} (rides : List Ride) :
    ∀ {m : List (String × StationStats)}, keysCover stations m →
      keysCover stations (rides.foldl (stationStep stations) m) := by
  induction rides with
  | nil => intro m h; exact h
  | cons r rest ih =>
    intro m h
    rw [List.foldl_cons]
    exact ih (keysCover_stationStep r h)

/-- Folding the rides accumulates one pickup per resolving start address. -/
theorem sumPickups_foldl {stations : List Station} (rides : List Ride) :
    ∀ {m : List (String × StationStats)}, keysCover stations m →
      ((rides.foldl (stationStep stations) m).map (fun e => e.2.pickups)).sum
        = (m.map (fun e => e.2.pickups)).sum
          + rides.countP (fun r => (findStationByName r.startAddress stations).isSome) := by
  induction rides with
  | nil => intro m _; simp
  | cons r rest ih =>
    intro m h
    rw [List.foldl_cons, List.countP_cons, ih (keysCover_stationStep r h),
      sumPickups_stationStep r h]
    omega

/-- Folding the rides accumulates one dropoff per resolving end address. -/
theorem sumDropoffs_foldl {stations : List Station} (rides : List Ride) :
    ∀ {m : List (String × StationStats)}, keysCover stations m →
      ((rides.foldl (stationStep stations) m).map (fun e => e.2.dropoffs)).sum
        = (m.map (fun e => e.2.dropoffs)).sum
          + rides.countP (fun r => (findStationByName r.endAddress stations).isSome) := by
  induction rides with
  | nil => intro m _; simp
  | cons r rest ih =>
    intro m h
    rw [List.foldl_cons, List.countP_cons, ih (keysCover_stationStep r h),
      sumDropoffs_stationStep r h]
    omega

/-- The per-entry bookkeeping invariant of StationStats. -/
def statsInv (s : StationStats) : Prop :=
  s.total = s.pickups + s.dropoffs ∧ s.net = (s.pickups : Int) - (s.dropoffs : Int)

/-- All zero-initialized entries satisfy the invariant. -/
theorem mem_initStationStats {P : StationStats → Prop}
    (hz : ∀ station, P (zeroStationStats station)) (stations : List Station) :
    ∀ e ∈ initStationStats stations, P e.2 := by
  unfold initStationStats
  have aux : ∀ (l : List Station) (m : List (String × StationStats)),
      (∀ e ∈ m, P e.2) →
      ∀ e ∈ l.foldl (fun m station =>
        setEntry m station.id (zeroStationStats station)) m, P e.2 := by
    intro l
    induction l with
    | nil => intro m hm; exact hm
    | cons st l ih =>
      intro m hm
      rw [List.foldl_cons]
      exact ih _ (mem_setEntry m st.id _ hm (hz st))
  exact aux stations [] (by simp)

/-- The invariant survives the whole ride fold. -/
theorem statsInv_foldl {stations : List Station} (rides : List Ride) :
    ∀ {m : List (String × StationStats)}, (∀ e ∈ m, statsInv e.2) →
      ∀ e ∈ rides.foldl (stationStep stations) m, statsInv e.2 := by
  induction rides with
  | nil => intro m hm; exact hm
  | cons r rest ih =>
    intro m hm
    rw [List.foldl_cons]
    refine ih ?_
    unfold stationStep
    refine mem_bumpStation _ recordDropoff ?_ (mem_bumpStation _ recordPickup ?_ hm)
    · intro w hw
      obtain ⟨h1, h2⟩ := hw
      constructor <;> simp [recordDropoff, h1, h2] <;> omega
    · intro w hw
      obtain ⟨h1, h2⟩ := hw
      constructor <;> simp [recordPickup, h1, h2] <;> omega

/-- C2: pickups sum to the number of rides with resolving start address,
dropoffs to the number with resolving end address, and every entry keeps
`total = pickups + dropoffs` and `net = pickups - dropoffs`. -/
theorem stationStats_conservation (rides : List Ride) (stations : List Station) :
    ((stationStats rides stations).map StationStats.pickups).sum
      = rides.countP (fun r => (findStationByName r.startAddress stations).isSome) ∧
    ((stationStats rides stations).map StationStats.dropoffs).sum
      = rides.countP (fun r => (findStationByName r.endAddress stations).isSome) ∧
    ∀ s ∈ stationStats rides stations,
      s.total = s.pickups + s.dropoffs ∧
      s.net = (s.pickups : Int) - (s.dropoffs : Int) := by
  have hcov := initStationStats_covers stations
  have hzero : ∀ e ∈ initStationStats stations,
      e.2.pickups = 0 ∧ e.2.dropoffs = 0 :=
    mem_initStationStats (P := fun w => w.pickups = 0 ∧ w.dropoffs = 0)
      (fun station => by simp [zeroStationStats]) stations
  have hpick0 : ((initStationStats stations).map (fun e => e.2.pickups)).sum = 0 :=
    List.sum_eq_zero (by
      intro x hx
      obtain ⟨e, he, hex⟩ := List.mem_map.mp hx
      rw [← hex]
      exact (hzero e he).1)
  have hdrop0 : ((initStationStats stations).map (fun e => e.2.dropoffs)).sum = 0 :=
    List.sum_eq_zero (by
      intro x hx
      obtain ⟨e, he, hex⟩ := List.mem_map.mp hx
      rw [← hex]
      exact (hzero e he).2)
  refine ⟨?_, ?_, ?_⟩
  · unfold stationStats
    rw [List.map_map]
    have h := sumPickups_foldl rides hcov
    rw [hpick0] at h
    simpa [Function.comp] using h
  · unfold stationStats
    rw [List.map_map]
    have h := sumDropoffs_foldl rides hcov
    rw [hdrop0] at h
    simpa [Function.comp] using h
  · intro s hs
    unfold stationStats at hs
    obtain ⟨e, he, hse⟩ := List.mem_map.mp hs
    have hinv := statsInv_foldl rides
      (mem_initStationStats (P := statsInv)
        (fun station => by simp [zeroStationStats, statsInv]) stations)
      e he
    rw [← hse]
    exact hinv

/-! ## Monetary statistics (StatsCards.tsx lines 159-178) -/

/-- Character class `[\d.]` of the price regex. -/
def digitOrDot (c : Char) : Bool :=
  c.isDigit || c == '.'

/-- Capture group of the first match of the JS regex `/£?([\d.]+)/`:
scan left to right; at the first position where an optional `£` is
followed by at least one digit-or-dot, capture the maximal run. -/
def priceCapture : List Char → Option (List Char)
  | [] => none
  | c :: rest =>
    if digitOrDot c then some ((c :: rest).takeWhile digitOrDot)
    else if c == '£' then
      match rest with
      | [] => none
      | d :: _ =>
        if digitOrDot d then some (rest.takeWhile digitOrDot)
        else priceCapture rest
    else priceCapture rest

/-- Decimal value of a digit string. -/
def digitsVal (l : List Char) : Nat :=
  l.foldl (fun n c => 10 * n + (c.toNat - 48)) 0

/-- JS `parseFloat` restricted to digit-and-dot strings: the longest valid
decimal prefix as an exact rational, `none` playing NaN. -/
def jsParseFloat (l : List Char) : Option Rat :=
  let intPart := l.takeWhile Char.isDigit
  let rest := l.drop intPart.length
  if intPart.isEmpty then
    match rest with
    | '.' :: rest2 =>
      let frac := rest2.takeWhile Char.isDigit
      if frac.isEmpty then none
      else some ((digitsVal frac : Rat) / (10 : Rat) ^ frac.length)
    | _ => none
  else
    match rest with
    | '.' :: rest2 =>
      let frac := rest2.takeWhile Char.isDigit
      some ((digitsVal intPart : Rat) + (digitsVal frac : Rat) / (10 : Rat) ^ frac.length)
    | _ => some (digitsVal intPart : Rat)

/-- The `ridesWithPrice` filter predicate: a falsy price, a failed regex
match, or a parsed value not strictly positive excludes the ride. -/
def rideHasPrice (r : Ride) : Bool :=
  match r.price with
  | none => false
  | some s =>
    if s == "" then false
    else
      match priceCapture s.data with
      | none => false
      | some t =>
        match jsParseFloat t with
        | none => false
        | some v => decide (0 < v)

/-- `ridesWithPrice`. -/
def ridesWithPrice (rides : List Ride) : List Ride :=
  rides.filter rideHasPrice

/-- JS addition where `none` plays NaN (`NaN` absorbs). -/
def addNaN (a b : Option Rat) : Option Rat :=
  match a, b with
  | some x, some y => some (x + y)
  | _, _ => none

/-- The reduce body of `totalSpentAmount`: falsy or unmatched prices leave
the sum alone, otherwise the parsed value is added. -/
def spentStep (sum : Option Rat) (r : Ride) : Option Rat :=
  match r.price with
  | none => sum
  | some s =>
    if s == "" then sum
    else
      match priceCapture s.data with
      | none => sum
      | some t => addNaN sum (jsParseFloat t)

/-- `totalSpentAmount`: reduce over the filtered rides from 0. -/
def totalSpentAmount (rides : List Ride) : Option Rat :=
  (ridesWithPrice rides).foldl spentStep (some 0)

/-- `totalSpentRides`. -/
def totalSpentRides (rides : List Ride) : Nat :=
  (ridesWithPrice rides).length

/-- The parsed price of a ride as the claim describes it: `none` for a
null, empty, or unparseable price string. -/
def parsedPrice (price : Option String) : Option Rat :=
  match price with
  | none => none
  | some s =>
    if s == "" then none
    else
      match priceCapture s.data with
      | none => none
      | some t => jsParseFloat t

/-- What a ride contributes to the claimed total: its parsed price when
strictly positive, otherwise nothing. -/
def contribPrice (r : Ride) : Rat :=
  match parsedPrice r.price with
  | some v => if 0 < v then v else 0
  | none => 0

/-- The filter keeps exactly the rides with a strictly positive parsed
price. -/
theorem rideHasPrice_eq_parsed (r : Ride) :
    rideHasPrice r = (parsedPrice r.price).any (fun v => decide (0 < v)) := by
  unfold rideHasPrice parsedPrice
  cases r.price with
  | none => rfl
  | some s =>
    by_cases hs : (s == "") = true
    · simp [hs]
    · simp only [hs, Bool.false_eq_true, if_false]
      cases priceCapture s.data with
      | none => rfl
      | some t =>
        cases hv : jsParseFloat t with
        | none => simp [hv]
        | some v => simp [hv, Option.any]

/-- Decompose a successfully parsed price into its parse chain. -/
theorem parsedPrice_some {p : Option String} {v : Rat}
    (h : parsedPrice p = some v) :
    ∃ s t, p = some s ∧ (s == "") = false ∧
      priceCapture s.data = some t ∧ jsParseFloat t = some v := by
  cases p with
  | none => simp [parsedPrice] at h
  | some s =>
    by_cases hs : (s == "") = true
    · simp [parsedPrice, hs] at h
    · cases hc : priceCapture s.data with
      | none => simp [parsedPrice, hs, hc] at h
      | some t =>
        refine ⟨s, t, rfl, Bool.eq_false_iff.mpr (by simpa using hs), hc, ?_⟩
        simpa [parsedPrice, hs, hc] using h

/-- A discarded ride contributes nothing to the claimed total. -/
theorem contribPrice_of_not_kept {r : Ride} (h : rideHasPrice r = false) :
    contribPrice r = 0 := by
  rw [rideHasPrice_eq_parsed] at h
  unfold contribPrice
  cases hp : parsedPrice r.price with
  | none => rfl
  | some v =>
    rw [hp] at h
    simp only [Option.any_some, decide_eq_false_iff_not] at h
    simp [h]

/-- The spending fold accumulates exactly the positive parsed prices. -/
theorem spent_foldl (rides : List Ride) :
    ∀ q : Rat, (rides.filter rideHasPrice).foldl spentStep (some q)
      = some (q + (rides.map contribPrice).sum) := by
  induction rides with
  | nil => intro q; simp
  | cons r rest ih =>
    intro q
    by_cases h : rideHasPrice r = true
    · have h2 := h
      rw [rideHasPrice_eq_parsed] at h2
      obtain ⟨v, hp, hpos⟩ : ∃ v, parsedPrice r.price = some v ∧ 0 < v := by
        cases hq : parsedPrice r.price with
        | none => rw [hq] at h2; simp at h2
        | some v =>
          rw [hq] at h2
          simp only [Option.any_some, decide_eq_true_eq] at h2
          exact ⟨v, rfl, h2⟩
      obtain ⟨s, t, hps, hs, hc, hv⟩ := parsedPrice_some hp
      have hstep : spentStep (some q) r = some (q + v) := by
        simp [spentStep, hps, hs, hc, hv, addNaN]
      have hcontrib : contribPrice r = v := by
        simp [contribPrice, hp, hpos]
      rw [List.filter_cons_of_pos (by simp [h]), List.foldl_cons, hstep,
        ih (q + v), List.map_cons, List.sum_cons, hcontrib]
      congr 1
      ring
    · have hfalse : rideHasPrice r = false := by
        cases hrp : rideHasPrice r
        · rfl
        · exact absurd hrp h
      rw [List.filter_cons_of_neg (by simp [hfalse]), ih q, List.map_cons,
        List.sum_cons, contribPrice_of_not_kept hfalse]
      congr 1
      ring

/-- C7: monetary statistics count and sum exactly the rides whose price
parses to a strictly positive value; a null, empty, unparseable, or
exactly-zero price is excluded from both; the "£1.50" scenario parses to
3/2 and the "£0.00" scenario parses to 0 (hence is excluded); parsing is
total, so no input can fault the computation. -/
theorem price_stats_characterization :
    (∀ r : Ride, rideHasPrice r
        = (parsedPrice r.price).any (fun v => decide (0 < v))) ∧
    (∀ rides : List Ride, totalSpentRides rides
        = rides.countP (fun r => (parsedPrice r.price).any (fun v => decide (0 < v)))) ∧
    (∀ rides : List Ride, totalSpentAmount rides
        = some ((rides.map contribPrice).sum)) ∧
    parsedPrice (some "£1.50") = some (3 / 2 : Rat) ∧
    parsedPrice (some "£0.00") = some 0 := by
  refine ⟨rideHasPrice_eq_parsed, ?_, ?_, ?_, ?_⟩
  · intro rides
    unfold totalSpentRides ridesWithPrice
    rw [← List.countP_eq_length_filter]
    exact List.countP_congr (fun r _ => by rw [rideHasPrice_eq_parsed])
  · intro rides
    unfold totalSpentAmount ridesWithPrice
    rw [spent_foldl rides 0]
    congr 1
    ring
  · have h : parsedPrice (some "£1.50")
        = some ((digitsVal ['1'] : Rat) + (digitsVal ['5', '0'] : Rat) / (10 : Rat) ^ 2) := rfl
    rw [h, show digitsVal ['1'] = 1 from rfl, show digitsVal ['5', '0'] = 50 from rfl]
    norm_num
  · have h : parsedPrice (some "£0.00")
        = some ((digitsVal ['0'] : Rat) + (digitsVal ['0', '0'] : Rat) / (10 : Rat) ^ 2) := rfl
    rw [h, show digitsVal ['0'] = 0 from rfl, show digitsVal ['0', '0'] = 0 from rfl]
    norm_num

/-! ## Streaks over distinct ride-dates (StatsCards.tsx lines 305-361) -/

/-- The distinct UTC calendar days of rides with a start timestamp, as
epoch-day numbers, in first-seen order: the key set of `ridesByDate`
(`toISOString().split("T")[0]` groups by `floor(ms / 86400000)`). -/
def rideDayKeys (rides : List Ride) : List Int :=
  rides.foldl (fun acc r =>
    match r.startTimeMs with
    | some ms =>
      let day := Int.fdiv ms 86400000
      if acc.contains day then acc else acc ++ [day]
    | none => acc) []

/-- Insert into a sorted list. -/
def insertSorted (x : Int) : List Int → List Int
  | [] => [x]
  | y :: ys => if x ≤ y then x :: y :: ys else y :: insertSorted x ys

/-- Ascending sort; the keys are distinct, so this agrees with the JS
`sort((a, b) => a.getTime() - b.getTime())` on the date objects. -/
def sortInts (l : List Int) : List Int :=
  l.foldr insertSorted []

/-- `rideDates`: the distinct ride-days in ascending order. -/
def rideDates (rides : List Ride) : List Int :=
  sortInts (rideDayKeys rides)

/-- The streak/break loop: for each consecutive pair of distinct ride-days
the day difference either extends the current streak (difference 1) or
resets it, and a positive gap of `daysDiff - 1` days updates the longest
break.  State: previous day, current streak, longest streak, longest
break. -/
def streakLoop : Int → Nat → Nat → Option Int → List Int → Nat × Option Int
  | _, _, longest, brk, [] => (longest, brk)
  | prev, cur, longest, brk, d :: rest =>
    let daysDiff := d - prev
    let cur2 := if daysDiff == 1 then cur + 1 else 1
    let longest2 := if daysDiff == 1 then max longest (cur + 1) else longest
    let breakDays := daysDiff - 1
    let brk2 :=
      if (decide (0 < breakDays) &&
          (match brk with
           | none => true
           | some b => decide (b < breakDays))) then some breakDays else brk
    streakLoop d cur2 longest2 brk2 rest

/-- `longestStreak` and `longestBreakDays`: both stay at their zero / null
initial values unless there are at least two distinct ride-dates. -/
def longestStreakAndBreak (rides : List Ride) : Nat × Option Int :=
  match rideDates rides with
  | d1 :: d2 :: rest => streakLoop d1 1 1 none (d2 :: rest)
  | _ => (0, none)

/-- `longestStreak`. -/
def longestStreak (rides : List Ride) : Nat :=
  (longestStreakAndBreak rides).1

/-- A ride on epoch day 0 (10-minute ride starting at the epoch). -/
def rideAtDay0 : Ride :=
  { rideId := none, startTimeMs := some 0, endTimeMs := some 600000,
    startAddress := none, endAddress := none, price := none,
    priceBreakdown := none, paymentMethod := none }

/-- A ride on epoch day 1. -/
def rideAtDay1 : Ride :=
  { rideId := none, startTimeMs := some 86400000, endTimeMs := some 87000000,
    startAddress := none, endAddress := none, price := none,
    priceBreakdown := none, paymentMethod := none }

/-- C4: the code leaves `longestStreak = 0` for a ride list whose rides
all fall on one single calendar date, where the claim (and the spec's
"a single isolated day counts as length 1") requires 1; with two
consecutive days the loop does return 2 as the claim describes. -/
theorem longestStreak_single_day_zero :
    longestStreak [rideAtDay0] = 0 ∧
    longestStreak [rideAtDay0, rideAtDay1] = 2 := by
  constructor
  · decide
  · decide

/-! ## Duration histogram (`JourneyTimeHistogram`,
RidesOverTimeHistogram.tsx lines 852-917) -/

/-- Rides with both timestamps (`ridesWithDuration`). -/
def ridesWithDuration (rides : List Ride) : List Ride :=
  rides.filter (fun r => r.startTimeMs.isSome && r.endTimeMs.isSome)

/-- `durationsSeconds`: `Math.floor(((endTimeMs || 0) - (startTimeMs || 0)) / 1000)`
per qualifying ride. -/
def durationsSeconds (rides : List Ride) : List Int :=
  (ridesWithDuration rides).map (fun r =>
    Int.fdiv (r.endTimeMs.getD 0 - r.startTimeMs.getD 0) 1000)

structure DurationHistogram where
  minDurationSeconds : Int
  maxDurationSeconds : Int
  numBins : Nat
  bins : List Nat

/-- Clamped bin index of one duration:
`Math.min(Math.floor((d - min) / w), numBins - 1)`. -/
def binIndex (minDurationSeconds w : Int) (numBins : Nat) (d : Int) : Int :=
  min (Int.fdiv (d - minDurationSeconds) w) ((numBins : Int) - 1)

/-- The `JourneyTimeHistogram` binning: `none` when no ride has both
timestamps, otherwise `numBins = ceil((max - min) / w) + 1` bins, each
counting the durations whose clamped index lands on it.  (`Math.ceil` of
the nonnegative quotient is `(a + w - 1).fdiv w`; the imperative
`bins[i]++` loop is modelled by per-bin counting.) -/
def journeyHistogram (rides : List Ride) (w : Int) : Option DurationHistogram :=
  match durationsSeconds rides with
  | [] => none
  | d :: ds =>
    let minDurationSeconds := ds.foldl min d
    let maxDurationSeconds := ds.foldl max d
    let numBins :=
      (Int.fdiv (maxDurationSeconds - minDurationSeconds + w - 1) w).toNat + 1
    let bins := (List.range numBins).map (fun (i : Nat) =>
      (d :: ds).countP (fun x =>
        binIndex minDurationSeconds w numBins x == (i : Int)))
    some ⟨minDurationSeconds, maxDurationSeconds, numBins, bins⟩

/-- A 65-second ride. -/
def rideDur65 : Ride :=
  { rideId := none, startTimeMs := some 0, endTimeMs := some 65000,
    startAddress := none, endAddress := none, price := none,
    priceBreakdown := none, paymentMethod := none }

/-- A 124-second ride. -/
def rideDur124 : Ride :=
  { rideId := none, startTimeMs := some 0, endTimeMs := some 124000,
    startAddress := none, endAddress := none, price := none,
    priceBreakdown := none, paymentMethod := none }

/-- C6 counterexample: durations 65s and 124s at bucket width 60s produce
bins `[2, 0]` — the final generated bin is empty and starts at 125s, so
the maximum observed value 124 does NOT fall within the final bin. -/
theorem journeyHistogram_final_bin_counterexample :
    (journeyHistogram [rideDur65, rideDur124] 60).map DurationHistogram.bins
      = some [2, 0] ∧
    (journeyHistogram [rideDur65, rideDur124] 60).map (fun h =>
        decide (h.minDurationSeconds + ((h.numBins : Int) - 1) * 60
          ≤ h.maxDurationSeconds))
      = some false := by
  constructor
  · decide
  · decide

/-- Floor division by a positive divisor, characterized. -/
theorem fdiv_char {a w q : Int} (hw : 0 < w) :
    a.fdiv w = q ↔ q * w ≤ a ∧ a < (q + 1) * w := by
  rw [Int.fdiv_eq_ediv _ hw.le]
  constructor
  · rintro rfl
    exact ⟨(Int.le_ediv_iff_mul_le hw).mp (le_refl _),
      (Int.ediv_lt_iff_lt_mul hw).mp (by omega)⟩
  · rintro ⟨h1, h2⟩
    have ha := (Int.le_ediv_iff_mul_le hw).mpr h1
    have hb := (Int.ediv_lt_iff_lt_mul hw).mpr h2
    omega

/-- Floor division is monotone in the dividend. -/
theorem fdiv_le_fdiv {a b w : Int} (hw : 0 < w) (h : a ≤ b) :
    a.fdiv w ≤ b.fdiv w := by
  rw [Int.fdiv_eq_ediv _ hw.le, Int.fdiv_eq_ediv _ hw.le]
  exact Int.ediv_le_ediv hw h

/-- `ceil(A / w) * w ≤ A` holds exactly when `w` divides `A`. -/
theorem ceil_mul_le_iff_dvd {A w : Int} (hw : 0 < w) :
    (Int.fdiv (A + w - 1) w) * w ≤ A ↔ w ∣ A := by
  rw [Int.fdiv_eq_ediv _ hw.le]
  constructor
  · intro hle
    have h2 : A + w - 1 < ((A + w - 1) / w + 1) * w :=
      Int.lt_ediv_add_one_mul_self _ hw
    rw [add_mul, one_mul] at h2
    have : A = ((A + w - 1) / w) * w := by linarith
    exact ⟨(A + w - 1) / w, by linarith [this]⟩
  · rintro ⟨k, hk⟩
    have hrw : A + w - 1 = (w - 1) + k * w := by
      rw [hk]; ring
    rw [hrw, Int.add_mul_ediv_right _ _ (ne_of_gt hw),
      Int.ediv_eq_zero_of_lt (by omega) (by omega), zero_add, hk]
    rw [mul_comm]

/-- A left fold of `min` is a lower bound of the seed. -/
theorem foldl_min_le_seed : ∀ (ds : List Int) (d : Int), ds.foldl min d ≤ d := by
  intro ds
  induction ds with
  | nil => intro d; exact le_refl d
  | cons y ys ih =>
    intro d
    calc (y :: ys).foldl min d = ys.foldl min (min d y) := rfl
    _ ≤ min d y := ih (min d y)
    _ ≤ d := min_le_left _ _

/-- A left fold of `min` is a lower bound of every member. -/
theorem foldl_min_le_mem : ∀ (ds : List Int) (d x : Int), x ∈ ds →
    ds.foldl min d ≤ x := by
  intro ds
  induction ds with
  | nil => intro d x hx; simp at hx
  | cons y ys ih =>
    intro d x hx
    rcases List.mem_cons.mp hx with h | h
    · subst h
      calc (x :: ys).foldl min d = ys.foldl min (min d x) := rfl
      _ ≤ min d x := foldl_min_le_seed ys _
      _ ≤ x := min_le_right _ _
    · exact ih (min d y) x h

/-- A left fold of `max` is an upper bound of the seed. -/
theorem seed_le_foldl_max : ∀ (ds : List Int) (d : Int), d ≤ ds.foldl max d := by
  intro ds
  induction ds with
  | nil => intro d; exact le_refl d
  | cons y ys ih =>
    intro d
    calc d ≤ max d y := le_max_left _ _
    _ ≤ ys.foldl max (max d y) := ih (max d y)
    _ = (y :: ys).foldl max d := rfl

/-- A left fold of `max` is an upper bound of every member. -/
theorem mem_le_foldl_max : ∀ (ds : List Int) (d x : Int), x ∈ ds →
    x ≤ ds.foldl max d := by
  intro ds
  induction ds with
  | nil => intro d x hx; simp at hx
  | cons y ys ih =>
    intro d x hx
    rcases List.mem_cons.mp hx with h | h
    · subst h
      calc x ≤ max d x := le_max_right _ _
      _ ≤ ys.foldl max (max d x) := seed_le_foldl_max ys _
      _ = (x :: ys).foldl max d := rfl
    · exact ih (max d y) x h

/-- The sum over a range of an integer-valued indicator of one value. -/
theorem sum_range_indicator (v : Int) : ∀ (N : Nat), 0 ≤ v → v < (N : Int) →
    ((List.range N).map (fun (i : Nat) => if v == (i : Int) then 1 else 0)).sum = 1 := by
  intro N
  induction N with
  | zero => intro h1 h2; omega
  | succ N ih =>
    intro h1 h2
    rw [List.range_succ, List.map_append, List.sum_append]
    by_cases hv : v = (N : Int)
    · have hzero : ((List.range N).map
          (fun (i : Nat) => if v == (i : Int) then 1 else 0)).sum = 0 := by
        apply List.sum_eq_zero
        intro x hx
        obtain ⟨i, hi, hix⟩ := List.mem_map.mp hx
        have : i < N := List.mem_range.mp hi
        rw [← hix, if_neg (by simp [hv]; omega)]
      rw [hzero]
      show 0 + ((([N] : List Nat)).map
        (fun (i : Nat) => if v == (i : Int) then 1 else 0)).sum = 1
      simp [hv]
    · have h2 : v < (N : Int) := by omega
      rw [ih h1 h2]
      have hne : (v == (N : Int)) = false := by simpa using hv
      simp [hne, hv]

/-- Summing the per-bin counts over the whole range recovers the list
length, provided every value's bin lands inside the range. -/
theorem sum_range_countP (g : Int → Int) : ∀ (S : List Int) (N : Nat),
    (∀ x ∈ S, 0 ≤ g x ∧ g x < (N : Int)) →
    ((List.range N).map (fun (i : Nat) =>
        S.countP (fun x => g x == (i : Int)))).sum
      = S.length := by
  intro S
  induction S with
  | nil => intro N _; simp
  | cons x S ih =>
    intro N hg
    have hx := hg x (List.mem_cons_self _ _)
    have hcount : ∀ i : Nat,
        (x :: S).countP (fun y => g y == (i : Int))
          = S.countP (fun y => g y == (i : Int))
            + (if g x == (i : Int) then 1 else 0) := by
      intro i
      rw [List.countP_cons]
    calc ((List.range N).map (fun (i : Nat) =>
          (x :: S).countP (fun y => g y == (i : Int)))).sum
        = ((List.range N).map (fun (i : Nat) =>
            S.countP (fun y => g y == (i : Int))
              + (if g x == (i : Int) then 1 else 0))).sum := by
          exact congrArg List.sum (List.map_congr_left (fun i _ => hcount i))
      _ = ((List.range N).map (fun (i : Nat) =>
            S.countP (fun y => g y == (i : Int)))).sum
          + ((List.range N).map (fun (i : Nat) =>
            (if g x == (i : Int) then 1 else 0))).sum := by
          induction (List.range N) with
          | nil => simp
          | cons j js ihr => simp_all; omega
      _ = S.length + 1 := by
          rw [ih N (fun y hy => hg y (List.mem_cons_of_mem _ hy)),
            sum_range_indicator (g x) N hx.1 hx.2]
      _ = (x :: S).length := by simp

/-- C6 (amended): for a positive bucket width and at least one qualifying
ride, the histogram has `numBins` bins; the counts sum to the number of
rides with both timestamps; bin `i` counts exactly the durations in the
contiguous range `[min + i*w, min + (i+1)*w)` (boundaries start at the
minimum and advance by the width, with no gaps); the maximum observed
duration always lies strictly below the end of the last bin; but the
final bin contains the maximum if and only if the width divides
`max - min` — otherwise the final generated bin is empty. -/
theorem journeyHistogram_amended (rides : List Ride) (w : Int)
    (h : DurationHistogram) (hw : 0 < w)
    (hh : journeyHistogram rides w = some h) :
    h.bins.length = h.numBins ∧
    h.bins.sum = (ridesWithDuration rides).length ∧
    (∀ i : Nat, i < h.numBins →
      h.bins.get? i = some ((durationsSeconds rides).countP (fun x =>
        decide (h.minDurationSeconds + (i : Int) * w ≤ x) &&
        decide (x < h.minDurationSeconds + ((i : Int) + 1) * w)))) ∧
    (h.maxDurationSeconds < h.minDurationSeconds + (h.numBins : Int) * w) ∧
    (h.minDurationSeconds + ((h.numBins : Int) - 1) * w ≤ h.maxDurationSeconds
      ↔ w ∣ (h.maxDurationSeconds - h.minDurationSeconds)) := by
  cases hds : durationsSeconds rides with
  | nil =>
    simp only [journeyHistogram, hds] at hh
    exact Option.noConfusion hh
  | cons d ds =>
    simp only [journeyHistogram, hds] at hh
    injection hh with hh
    subst hh
    simp only []
    set m := ds.foldl min d with hm
    set M := ds.foldl max d with hM
    set C := Int.fdiv (M - m + w - 1) w with hCdef
    have hmd : m ≤ d := foldl_min_le_seed ds d
    have hdM : d ≤ M := seed_le_foldl_max ds d
    have hmM : m ≤ M := le_trans hmd hdM
    have hmem_lower : ∀ x ∈ d :: ds, m ≤ x := by
      intro x hx
      rcases List.mem_cons.mp hx with hx | hx
      · subst hx; exact hmd
      · exact foldl_min_le_mem ds d x hx
    have hmem_upper : ∀ x ∈ d :: ds, x ≤ M := by
      intro x hx
      rcases List.mem_cons.mp hx with hx | hx
      · subst hx; exact hdM
      · exact mem_le_foldl_max ds d x hx
    have hC0 : 0 ≤ C := Int.fdiv_nonneg (by omega) hw.le
    have hCchar : C * w ≤ M - m + w - 1 ∧ M - m + w - 1 < (C + 1) * w :=
      (fdiv_char hw).mp hCdef.symm
    have hMle : M - m ≤ C * w := by
      have := hCchar.2
      rw [add_mul, one_mul] at this
      linarith
    have hN : ((C.toNat + 1 : Nat) : Int) = C + 1 := by
      push_cast [Int.toNat_of_nonneg hC0]
      ring
    have hidx : ∀ x ∈ d :: ds,
        binIndex m w (C.toNat + 1) x = Int.fdiv (x - m) w := by
      intro x hx
      unfold binIndex
      rw [hN]
      have hle : Int.fdiv (x - m) w ≤ C := by
        have h1 : x - m ≤ M - m + w - 1 := by
          have := hmem_upper x hx
          omega
        exact hCdef ▸ fdiv_le_fdiv hw h1
      have : (C + 1 : Int) - 1 = C := by ring
      rw [this]
      exact min_eq_left hle
    have hidx_nonneg : ∀ x ∈ d :: ds, 0 ≤ Int.fdiv (x - m) w := by
      intro x hx
      exact Int.fdiv_nonneg (by linarith [hmem_lower x hx]) hw.le
    have hbound : ∀ x ∈ d :: ds, 0 ≤ binIndex m w (C.toNat + 1) x ∧
        binIndex m w (C.toNat + 1) x < ((C.toNat + 1 : Nat) : Int) := by
      intro x hx
      rw [hidx x hx, hN]
      refine ⟨hidx_nonneg x hx, ?_⟩
      have h1 : x - m ≤ M - m + w - 1 := by
        have := hmem_upper x hx
        omega
      have := hCdef ▸ fdiv_le_fdiv hw h1
      omega
    refine ⟨by simp, ?_, ?_, ?_, ?_⟩
    · rw [sum_range_countP (binIndex m w (C.toNat + 1)) (d :: ds) (C.toNat + 1)
        hbound]
      have : durationsSeconds rides = d :: ds := hds
      unfold durationsSeconds at this
      rw [← List.length_map (ridesWithDuration rides)
        (fun r => Int.fdiv (r.endTimeMs.getD 0 - r.startTimeMs.getD 0) 1000), this]
    · intro i hi
      rw [List.get?_map, List.get?_range hi]
      simp only [Option.map_some']
      congr 1
      refine List.countP_congr ?_
      intro x hx
      rw [hidx x hx]
      rcases fdiv_char (q := (i : Int)) hw (a := x - m) with ⟨hmp, hmpr⟩
      by_cases hq : Int.fdiv (x - m) w = (i : Int)
      · have hb := (fdiv_char hw).mp hq
        rw [hq]
        have h1 : m + (i : Int) * w ≤ x := by linarith [hb.1]
        have h2 : x < m + ((i : Int) + 1) * w := by linarith [hb.2]
        simp [h1, h2]
      · have hb : ¬((i : Int) * w ≤ x - m ∧ x - m < ((i : Int) + 1) * w) :=
          fun hcon => hq ((fdiv_char hw).mpr hcon)
        have hne : (Int.fdiv (x - m) w == (i : Int)) = false := by
          simpa using hq
        rw [hne]
        by_cases h1 : m + (i : Int) * w ≤ x
        · have h2 : ¬(x < m + ((i : Int) + 1) * w) := by
            intro h2
            exact hb ⟨by linarith, by linarith⟩
          simp [h2]
        · simp [h1]
    · rw [hN, add_mul, one_mul]
      linarith
    · have hN1 : ((C.toNat + 1 : Nat) : Int) - 1 = C := by
        rw [hN]; ring
      rw [hN1]
      constructor
      · intro hle
        exact (ceil_mul_le_iff_dvd hw).mp (hCdef ▸ (by linarith))
      · intro hdvd
        have := (ceil_mul_le_iff_dvd hw).mpr hdvd
        rw [← hCdef] at this
        linarith

/-- The concrete histogram of the 65s/124s rides at width 60. -/
def histEx : DurationHistogram := ⟨65, 124, 2, [2, 0]⟩

/-- Witness for the amended C6 theorem at a concrete input. -/
theorem journeyHistogram_amended_w :
    (0 : Int) < 60 ∧
    journeyHistogram [rideDur65, rideDur124] 60 = some histEx ∧
    (histEx.maxDurationSeconds
        < histEx.minDurationSeconds + (histEx.numBins : Int) * 60 ∧
      (histEx.minDurationSeconds + ((histEx.numBins : Int) - 1) * 60
          ≤ histEx.maxDurationSeconds
        ↔ (60 : Int) ∣ (histEx.maxDurationSeconds - histEx.minDurationSeconds))) :=
  ⟨by decide, by rfl,
    (journeyHistogram_amended [rideDur65, rideDur124] 60 histEx (by decide)
      (by rfl)).2.2.2⟩

/-! ## Duration summary statistics (StatsCards.tsx lines 115-142) -/

/-- `durationsMs`: `(endTimeMs || 0) - (startTimeMs || 0)` per qualifying
ride. -/
def durationsMs (rides : List Ride) : List Int :=
  (ridesWithDuration rides).map (fun r => r.endTimeMs.getD 0 - r.startTimeMs.getD 0)

/-- `avgDurationMinutes`: `Math.round(sum / length / 60000)`, null when no
ride has both timestamps. -/
def avgDurationMinutes (rides : List Ride) : Option Int :=
  match durationsMs rides with
  | [] => none
  | d :: ds =>
    some (jsRoundQ ((((d :: ds).sum : Int) : Rat) / (((d :: ds).length : Nat) : Rat) / 60000))

/-- `minDurationMinutes`: `Math.round(Math.min(...durationsMs) / 60000)`. -/
def minDurationMinutes (rides : List Ride) : Option Int :=
  match durationsMs rides with
  | [] => none
  | d :: ds => some (jsRoundDiv (ds.foldl min d) 60000)

/-- `maxDurationMinutes`: `Math.round(Math.max(...durationsMs) / 60000)`. -/
def maxDurationMinutes (rides : List Ride) : Option Int :=
  match durationsMs rides with
  | [] => none
  | d :: ds => some (jsRoundDiv (ds.foldl max d) 60000)

/-- A ride whose end precedes its start by one minute. -/
def rideNeg : Ride :=
  { rideId := none, startTimeMs := some 60000, endTimeMs := some 0,
    startAddress := none, endAddress := none, price := none,
    priceBreakdown := none, paymentMethod := none }

/-- C8 counterexample: the negative-duration ride is neither clamped nor
treated as invalid — the engine reports a minimum duration of -1 minutes,
which is neither null nor nonnegative. -/
theorem negative_duration_not_clamped :
    minDurationMinutes [rideNeg] = some (-1) ∧
    ¬(minDurationMinutes [rideNeg] = none ∨
      (0 : Int) ≤ (minDurationMinutes [rideNeg]).getD 0) := by
  constructor
  · decide
  · decide

/-- A ride with the given timestamps and no other data. -/
def mkRideTimes (s e : Int) : Ride :=
  { rideId := none, startTimeMs := some s, endTimeMs := some e,
    startAddress := none, endAddress := none, price := none,
    priceBreakdown := none, paymentMethod := none }

/-- C8 (amended): the engine is total on rides with `endTimeMs <
startTimeMs`; the negative duration is processed as-is — it is counted,
its (nonpositive) rounded minute value flows into min, max and average,
and the duration histogram still has data — rather than being clamped or
treated as invalid. -/
theorem negative_duration_total (s e : Int) (hse : e < s) :
    (ridesWithDuration [mkRideTimes s e]).length = 1 ∧
    minDurationMinutes [mkRideTimes s e] = some (jsRoundDiv (e - s) 60000) ∧
    maxDurationMinutes [mkRideTimes s e] = some (jsRoundDiv (e - s) 60000) ∧
    avgDurationMinutes [mkRideTimes s e]
      = some (jsRoundQ ((((e - s : Int)) : Rat) / 1 / 60000)) ∧
    jsRoundDiv (e - s) 60000 ≤ 0 ∧
    (journeyHistogram [mkRideTimes s e] 60).isSome = true := by
  have hfilter : ridesWithDuration [mkRideTimes s e] = [mkRideTimes s e] := by
    simp [ridesWithDuration, mkRideTimes]
  have hdur : durationsMs [mkRideTimes s e] = [e - s] := by
    unfold durationsMs
    rw [hfilter]
    simp [mkRideTimes]
  have hsec : durationsSeconds [mkRideTimes s e] = [Int.fdiv (e - s) 1000] := by
    unfold durationsSeconds
    rw [hfilter]
    simp [mkRideTimes]
  refine ⟨by rw [hfilter]; rfl, ?_, ?_, ?_, ?_, ?_⟩
  · rw [minDurationMinutes, hdur]
    rfl
  · rw [maxDurationMinutes, hdur]
    rfl
  · rw [avgDurationMinutes, hdur]
    simp only [List.sum_cons, List.sum_nil, List.length_cons, List.length_nil,
      add_zero]
    norm_num
  · have hlt : jsRoundDiv (e - s) 60000 < 1 := by
      unfold jsRoundDiv
      rw [Int.fdiv_eq_ediv _ (by norm_num)]
      rw [Int.ediv_lt_iff_lt_mul (by norm_num)]
      omega
    omega
  · simp only [journeyHistogram, hsec]
    rfl

/-- Witness for the amended C8 theorem at a concrete negative-duration
ride. -/
theorem negative_duration_total_w :
    (0 : Int) < 60000 ∧
    ((ridesWithDuration [mkRideTimes 60000 0]).length = 1 ∧
     minDurationMinutes [mkRideTimes 60000 0]
       = some (jsRoundDiv ((0 : Int) - 60000) 60000) ∧
     maxDurationMinutes [mkRideTimes 60000 0]
       = some (jsRoundDiv ((0 : Int) - 60000) 60000) ∧
     avgDurationMinutes [mkRideTimes 60000 0]
       = some (jsRoundQ ((((0 : Int) - 60000 : Int) : Rat) / 1 / 60000)) ∧
     jsRoundDiv ((0 : Int) - 60000) 60000 ≤ 0 ∧
     (journeyHistogram [mkRideTimes 60000 0] 60).isSome = true) :=
  ⟨by decide, negative_duration_total 60000 0 (by decide)⟩

end CycleStats
